import Mathlib

/-!
# Verification of the betslip-parser fixture-resolution engine

Shallow embedding of the resolution engine of the betslip-parser
repository (`server.js` and its earlier revisions).  JavaScript strings
are modelled as Lean `String` (a list of code points); the JS runtime's
`Date.parse` is an explicit `String → Option Int` parameter (`none`
models `NaN`); `Date.prototype.toISOString` is modelled by an injective
encoding `toIso` of the epoch instant; upstream HTTP calls are modelled
by an explicit `Oracle` record, and every call the code would issue is
logged in a request list.
-/

namespace Betslip

/-! ## Character-level primitives

`String.prototype.toLowerCase` is modelled on the ASCII range (the
pipeline first decomposes accented letters to ASCII base letters plus
combining marks, so this is the range that matters downstream). -/

/-- ASCII lower-case table: the 26 pairs ('A','a') … ('Z','z'). -/
def asciiLower : List (Char × Char) :=
  [('A','a'),('B','b'),('C','c'),('D','d'),('E','e'),('F','f'),('G','g'),
   ('H','h'),('I','i'),('J','j'),('K','k'),('L','l'),('M','m'),('N','n'),
   ('O','o'),('P','p'),('Q','q'),('R','r'),('S','s'),('T','t'),('U','u'),
   ('V','v'),('W','w'),('X','x'),('Y','y'),('Z','z')]

/-- Lower-case a single character (ASCII range; other characters are
unchanged, matching `toLowerCase` on the characters this pipeline
produces). -/
def lowerChar (c : Char) : Char :=
  ((asciiLower.find? (fun p => p.1 = c)).map (fun p => p.2)).getD c

/-- A combining diacritical mark, the range `[̀-ͯ]` stripped by
`normalizePlain`. -/
def isMark (c : Char) : Bool :=
  decide (0x300 ≤ c.toNat ∧ c.toNat ≤ 0x36F)

/-- Unicode NFD decompositions for the accented Latin letters this domain
uses (the vision model emits Spanish/Italian player and team names).
`String.prototype.normalize("NFD")` is modelled by this table; characters
not listed are left alone. -/
def nfdTable : List (Char × List Char) :=
  [('á', ['a', Char.ofNat 0x301]), ('é', ['e', Char.ofNat 0x301]),
   ('í', ['i', Char.ofNat 0x301]), ('ó', ['o', Char.ofNat 0x301]),
   ('ú', ['u', Char.ofNat 0x301]), ('ý', ['y', Char.ofNat 0x301]),
   ('à', ['a', Char.ofNat 0x300]), ('è', ['e', Char.ofNat 0x300]),
   ('ì', ['i', Char.ofNat 0x300]), ('ò', ['o', Char.ofNat 0x300]),
   ('ù', ['u', Char.ofNat 0x300]),
   ('â', ['a', Char.ofNat 0x302]), ('ê', ['e', Char.ofNat 0x302]),
   ('î', ['i', Char.ofNat 0x302]), ('ô', ['o', Char.ofNat 0x302]),
   ('û', ['u', Char.ofNat 0x302]),
   ('ä', ['a', Char.ofNat 0x308]), ('ë', ['e', Char.ofNat 0x308]),
   ('ï', ['i', Char.ofNat 0x308]), ('ö', ['o', Char.ofNat 0x308]),
   ('ü', ['u', Char.ofNat 0x308]),
   ('ã', ['a', Char.ofNat 0x303]), ('õ', ['o', Char.ofNat 0x303]),
   ('ñ', ['n', Char.ofNat 0x303]),
   ('ç', ['c', Char.ofNat 0x327]),
   ('Á', ['A', Char.ofNat 0x301]), ('É', ['E', Char.ofNat 0x301]),
   ('Í', ['I', Char.ofNat 0x301]), ('Ó', ['O', Char.ofNat 0x301]),
   ('Ú', ['U', Char.ofNat 0x301]),
   ('À', ['A', Char.ofNat 0x300]), ('È', ['E', Char.ofNat 0x300]),
   ('Ä', ['A', Char.ofNat 0x308]), ('Ë', ['E', Char.ofNat 0x308]),
   ('Ö', ['O', Char.ofNat 0x308]), ('Ü', ['U', Char.ofNat 0x308]),
   ('Ñ', ['N', Char.ofNat 0x303]), ('Ç', ['C', Char.ofNat 0x327])]

/-- NFD decomposition of one character. -/
def decomp (c : Char) : List Char :=
  ((nfdTable.find? (fun p => p.1 = c)).map (fun p => p.2)).getD [c]

/-- The whitespace characters matched by the JavaScript `\s` class. -/
def wsChars : List Char :=
  [' ', '\t', '\n', '\r', Char.ofNat 0x0B, Char.ofNat 0x0C,
   Char.ofNat 0xA0, Char.ofNat 0x1680,
   Char.ofNat 0x2000, Char.ofNat 0x2001, Char.ofNat 0x2002,
   Char.ofNat 0x2003, Char.ofNat 0x2004, Char.ofNat 0x2005,
   Char.ofNat 0x2006, Char.ofNat 0x2007, Char.ofNat 0x2008,
   Char.ofNat 0x2009, Char.ofNat 0x200A, Char.ofNat 0x2028,
   Char.ofNat 0x2029, Char.ofNat 0x202F, Char.ofNat 0x205F,
   Char.ofNat 0x3000, Char.ofNat 0xFEFF]

/-- Whitespace test (JavaScript `\s`). -/
def isWs (c : Char) : Bool := wsChars.contains c

/-! ## The stages of `normalizePlain` (part_000:65-73, server.js:76-79)

```js
function normalizePlain(s) {
  return (s || "")
    .normalize("NFD").replace(/[̀-ͯ]/g, "")
    .toLowerCase().replace(/\./g, "").replace(/\s{2,}/g, " ").trim();
}
```
-/

/-- The `.normalize("NFD")` -/
def nfd (l : List Char) : List Char := l.flatMap decomp

/-- The `.replace(/[̀-ͯ]/g, "")` -/
def stripMarks (l : List Char) : List Char := l.filter (fun c => !isMark c)

/-- The `.toLowerCase()` -/
def lowerL (l : List Char) : List Char := l.map lowerChar

/-- The `.replace(/\./g, "")` -/
def stripDots (l : List Char) : List Char := l.filter (fun c => !(c = '.'))

/-- Fuel-driven worker for `collapseWs` (structural recursion on the
fuel, so that the kernel can evaluate it; the fuel never runs out when
it starts at the list length). -/
def collapseF : Nat → List Char → List Char
  | _, [] => []
  | _, [c] => [c]
  | 0, l => l
  | fuel + 1, c1 :: c2 :: rest =>
    if isWs c1 then
      if isWs c2 then ' ' :: collapseF fuel (rest.dropWhile isWs)
      else c1 :: collapseF fuel (c2 :: rest)
    else c1 :: collapseF fuel (c2 :: rest)

/-- The `.replace(/\s{2,}/g, " ")`: every maximal run of two or more
whitespace characters becomes a single space; an isolated whitespace
character is kept as-is. -/
def collapseWs (l : List Char) : List Char := collapseF l.length l

/-- Leading-whitespace trim. -/
def trimL (l : List Char) : List Char := l.dropWhile isWs

/-- Trailing-whitespace trim. -/
def trimR : List Char → List Char
  | [] => []
  | c :: cs =>
    match trimR cs with
    | [] => if isWs c then [] else [c]
    | l => c :: l

/-- The `.trim()` -/
def trimWs (l : List Char) : List Char := trimR (trimL l)

/-- The `normalizePlain` on code-point lists. -/
def normalizePlainL (l : List Char) : List Char :=
  trimWs (collapseWs (stripDots (lowerL (stripMarks (nfd l)))))

/-- The `normalizePlain` (part_000:65, server.js:76): NFD-decompose, strip
combining marks, lower-case, strip periods, collapse whitespace runs,
trim. -/
def normalizePlain (s : String) : String := ⟨normalizePlainL s.data⟩

/-! ## Generic string utilities used by the engine -/

/-- The `String.prototype.includes`: substring containment. -/
def containsSub (s sub : List Char) : Bool :=
  match s with
  | [] => sub.isEmpty
  | _ :: rest => sub.isPrefixOf s || containsSub rest sub

/-- Fuel-driven worker for `splitWs`. -/
def splitF : Nat → List Char → List (List Char)
  | _, [] => []
  | 0, _ => []
  | fuel + 1, c :: cs =>
    if isWs c then splitF fuel cs
    else
      (c :: cs).takeWhile (fun d => !isWs d) ::
        splitF fuel ((c :: cs).dropWhile (fun d => !isWs d))

/-- The `split(/\s+/).filter(Boolean)`: the non-empty maximal runs of
non-whitespace characters, in order. -/
def splitWs (l : List Char) : List (List Char) := splitF l.length l

/-- The `raw.split(/vs/i)`: split at every (case-insensitive) occurrence of
the two letters `vs`, scanning left to right. -/
def splitVs : List Char → List (List Char)
  | [] => [[]]
  | [c] => [[c]]
  | c1 :: c2 :: rest =>
    if lowerChar c1 = 'v' ∧ lowerChar c2 = 's' then [] :: splitVs rest
    else
      match splitVs (c2 :: rest) with
      | [] => [[c1]]
      | seg :: segs => (c1 :: seg) :: segs

/-- The `raw.split(/vs/i).map(s => s.trim()).filter(Boolean)`
(part_000:173, server.js:73). -/
def splitSides (raw : String) : List String :=
  (((splitVs raw.data).map trimWs).filter (fun l => !l.isEmpty)).map
    (fun l => String.mk l)

/-- The `Set.prototype.add` followed by `Array.from`: append unless already
present, preserving first-insertion order. -/
def setAdd (l : List String) (x : String) : List String :=
  if x ∈ l then l else l ++ [x]

/-- The `String.prototype.replace` with a plain-string pattern: replace the
first occurrence only. -/
def replaceFirstL (pat rep : List Char) : List Char → List Char
  | [] => []
  | c :: cs =>
    if pat.isPrefixOf (c :: cs) then rep ++ (c :: cs).drop pat.length
    else c :: replaceFirstL pat rep cs

/-- The `replace` on `String`. -/
def replaceFirst (s pat rep : String) : String :=
  ⟨replaceFirstL pat.data rep.data s.data⟩

/-- The `tokens.join(" ")` -/
def joinSpace (tokens : List (List Char)) : List Char :=
  List.intercalate [' '] tokens

/-! ## Name-variant expansion

Two revisions of `expandName` exist.  `server.js:82-93` adds the
initials-stripped token join unconditionally; `part_000:184-197` guards
it with `if (noInitials)`.  Both are embedded. -/

/-- The `expandName` (server.js:82-93):

```js
function expandName(side) {
  const plain = normalizePlain(side);
  const tokens = plain.split(/\s+/).filter(Boolean);
  const set = new Set();
  if (tokens.length >= 2) {
    set.add(tokens.filter(t => t.length > 1).join(" "));
    set.add(tokens[tokens.length - 1]);
  } else {
    set.add(plain);
  }
  return Array.from(set);
}
``` -/
def expandName (side : String) : List String :=
  let plain := normalizePlain side
  let tokens := splitWs plain.data
  if tokens.length ≥ 2 then
    setAdd (setAdd []
        ⟨joinSpace (tokens.filter (fun t => t.length > 1))⟩)
      ⟨tokens.getLastD []⟩
  else setAdd [] plain

/-- The `expandName` (part_000:184-197): as above but the initials-stripped
join is only added when non-empty (`if (noInitials) variants.add(...)`). -/
def expandNameP (side : String) : List String :=
  let plain := normalizePlain side
  let tokens := splitWs plain.data
  if tokens.length ≥ 2 then
    let noInitials : String := ⟨joinSpace (tokens.filter (fun t => t.length > 1))⟩
    setAdd (if noInitials = "" then [] else setAdd [] noInitials)
      ⟨tokens.getLastD []⟩
  else setAdd [] plain

/-- The `addDiacriticAlternatives` (part_000:201-206): a static
accent-restoration table for two known surnames. -/
def addDiacriticAlternatives (v : String) : List String :=
  let l0 := [v]
  let l1 := if containsSub v.data "cerundolo".data then
    setAdd l0 (replaceFirst v "cerundolo" "cerúndolo") else l0
  if containsSub v.data "alcaraz".data then
    setAdd l1 (replaceFirst v "alcaraz" "álcaraz") else l1

/-! ## Data model

JSON optional string fields (`homeTeam?.name`, `tournament?.name`, …)
are modelled as `String` with `""` standing for absent/null — every use
site in the source applies them through the JS falsy test `||`, which
identifies `""`, `null` and `undefined`.  `startTimestamp` is epoch
seconds with `0` for absent (again falsy at every use site). -/

/-- One `{id, name}` entry of a search-response section. -/
structure Entity where
  id : Nat
  name : String
deriving Repr, DecidableEq

/-- One sport section of the `/search/all` response, exposing
`players[]` and `teams[]`. -/
structure SportSection where
  players : List Entity
  teams : List Entity
deriving Repr, DecidableEq

/-- The `/search/all` JSON object: sections keyed by sport name, in
document order (JS object iteration order for string keys). -/
abbrev SearchResp := List (String × SportSection)

/-- An `EntityCandidate` as built by `topTennisCandidates`. -/
structure Candidate where
  ctype : String
  id : Nat
  name : String
deriving Repr, DecidableEq

/-- A fixture event from `/player/id/events/next/0`. -/
structure FixtureEvent where
  homeName : String
  awayName : String
  tournamentName : String
  seasonName : String
  startTimestamp : Int
deriving Repr, DecidableEq

/-- The `{ tournament, startIso }` — the engine's output contract. -/
structure ResolutionResult where
  tournament : String
  startIso : Option String
deriving Repr, DecidableEq

/-- The `new Date(ts * 1000).toISOString()` is modelled by an injective
encoding of the epoch instant in milliseconds (no claim inspects the
ISO-8601 surface syntax). -/
def toIso (ms : Int) : String := "epoch-ms:" ++ toString ms

/-- The web-fallback `/enrich-online` response's `found` object.  A
network error, a non-2xx response, a JSON without `found` and a falsy
`found.tournament` all behave identically in the source (fall through to
`return null`), so the oracle returns `none` for all of them. -/
structure WebFound where
  tournament : String
  startIso : String
deriving Repr, DecidableEq

/-- One upstream call issued by the engine. -/
inductive Req where
  | search (q : String)
  | events (id : Nat)
  | web (partido : String)
deriving Repr, DecidableEq

/-- The three upstream endpoints.  `Except.error` models a thrown fetch
error (timeout, non-2xx, malformed JSON). -/
structure Oracle where
  search : String → Except Unit SearchResp
  events : Nat → Except Unit (List FixtureEvent)
  web : String → Option WebFound

/-! ## Candidate extraction (`topTennisCandidates`, part_000:223-244) -/

/-- Extract candidates from a search response: prefer the `tennis`
section's players (capped at 5); if that is empty, scan every section
generically, 3 players and 3 teams per section, capped at 5 overall. -/
def candidatesOf (resp : SearchResp) : List Candidate :=
  let fromTennis :=
    ((((resp.lookup "tennis").map SportSection.players).getD []).map
      (fun p => ({ ctype := "player", id := p.id, name := p.name } : Candidate))).take 5
  if !fromTennis.isEmpty then fromTennis
  else
    (resp.flatMap (fun sec =>
      (sec.2.players.take 3).map
        (fun p => ({ ctype := "player", id := p.id, name := p.name } : Candidate)) ++
      (sec.2.teams.take 3).map
        (fun t => ({ ctype := "team", id := t.id, name := t.name } : Candidate)))).take 5

/-! ## Strategy A (part_000:253-283)

The combo loop fetches the events of the first 3 candidates
sequentially; a thrown fetch aborts the whole combo (caught by the
combo-level `try`).  The fetched lists land in the plain object
`eventsById`, whose keys are the numeric candidate ids — JS objects
iterate integer-like keys in ascending numeric order, with a repeated
key overwritten in place — before the match scan runs. -/

/-- Sequentially fetch `/events/next/0` for each candidate; on the first
thrown fetch the remaining candidates are not queried and the combo
fails. -/
def fetchEventsSeq (O : Oracle) :
    List Candidate → Except Unit (List (Nat × List FixtureEvent)) × List Req
  | [] => (.ok [], [])
  | c :: cs =>
    match O.events c.id with
    | .error _ => (.error (), [Req.events c.id])
    | .ok evs =>
      match fetchEventsSeq O cs with
      | (.error e, reqs) => (.error e, Req.events c.id :: reqs)
      | (.ok pairs, reqs) => (.ok ((c.id, evs) :: pairs), Req.events c.id :: reqs)

/-- Property assignment on a JS object: overwrite the value of an
existing integer key in place, else append. -/
def upsertNat (l : List (Nat × List FixtureEvent)) (p : Nat × List FixtureEvent) :
    List (Nat × List FixtureEvent) :=
  match l with
  | [] => [p]
  | q :: qs => if q.1 = p.1 then p :: qs else q :: upsertNat qs p

/-- Insertion step of an ascending sort by numeric key. -/
def insertByKey (p : Nat × List FixtureEvent) :
    List (Nat × List FixtureEvent) → List (Nat × List FixtureEvent)
  | [] => [p]
  | q :: qs => if p.1 ≤ q.1 then p :: q :: qs else q :: insertByKey p qs

/-- The `Object.values(eventsById)` flattened: integer keys in ascending
order, last assignment per key winning. -/
def eventsScanOrder (pairs : List (Nat × List FixtureEvent)) : List FixtureEvent :=
  ((pairs.foldl upsertNat []).foldr insertByKey []).flatMap (fun p => p.2)

/-- Does some variant of `vars` occur (as a substring, re-normalized) in
the normalized home name or the normalized away name?
(part_000:270-271). -/
def varHit (vars : List String) (home away : String) : Bool :=
  vars.any (fun v =>
    containsSub home.data (normalizePlain v).data ||
    containsSub away.data (normalizePlain v).data)

/-- The `hasLeft && hasRight` containment test of the Strategy-A scan. -/
def bothSidesTest (lv rv : List String) (ev : FixtureEvent) : Bool :=
  let home := normalizePlain ev.homeName
  let away := normalizePlain ev.awayName
  varHit lv home away && varHit rv home away

/-- First event of the scan order satisfying the both-sides test. -/
def scanEvents (lv rv : List String) (events : List FixtureEvent) :
    Option FixtureEvent :=
  events.find? (bothSidesTest lv rv)

/-- JS `a || b` on strings (only `""` is falsy). -/
def jsOrS (a b : String) : String := if a = "" then b else a

/-- The result built from a Strategy-A hit (part_000:273-276). -/
def resultOfEventA (ev : FixtureEvent) : ResolutionResult :=
  { tournament := jsOrS ev.tournamentName ev.seasonName,
    startIso :=
      if ev.startTimestamp = 0 then none
      else some (toIso (ev.startTimestamp * 1000)) }

/-- The Strategy-A combo loop over `combinedQueries.slice(0, 6)`.  Every
thrown fetch is caught at the combo level and the next combo runs. -/
def strategyA (O : Oracle) (lv rv : List String) :
    List String → Option ResolutionResult × List Req
  | [] => (none, [])
  | q :: qs =>
    match O.search q with
    | .error _ =>
      let (r, reqs) := strategyA O lv rv qs
      (r, Req.search q :: reqs)
    | .ok resp =>
      match fetchEventsSeq O ((candidatesOf resp).take 3) with
      | (.error _, reqs1) =>
        let (r, reqs) := strategyA O lv rv qs
        (r, Req.search q :: (reqs1 ++ reqs))
      | (.ok pairs, reqs1) =>
        match scanEvents lv rv (eventsScanOrder pairs) with
        | some ev => (some (resultOfEventA ev), Req.search q :: reqs1)
        | none =>
          let (r, reqs) := strategyA O lv rv qs
          (r, Req.search q :: (reqs1 ++ reqs))

/-! ## Strategy B (part_000:285-333) -/

/-- The `firstCandidatesOrNull`: try each variant in order; the first search
that yields a non-empty candidate list wins (truncated to 3); search
errors and empty lists both fall through to the next variant. -/
def firstCandidatesOrNull (O : Oracle) :
    List String → Option (List Candidate) × List Req
  | [] => (none, [])
  | v :: vs =>
    match O.search v with
    | .error _ =>
      let (r, reqs) := firstCandidatesOrNull O vs
      (r, Req.search v :: reqs)
    | .ok resp =>
      let list := candidatesOf resp
      if list.isEmpty then
        let (r, reqs) := firstCandidatesOrNull O vs
        (r, Req.search v :: reqs)
      else (some (list.take 3), [Req.search v])

/-- The `Promise.allSettled` over one side's fixture lookups: every
candidate is queried, and the combined list keeps the fulfilled branches
(in candidate order) while rejected branches contribute nothing. -/
def settleEvents (O : Oracle) (cands : List Candidate) :
    List FixtureEvent × List Req :=
  ((cands.map (fun c => O.events c.id)).flatMap
      (fun r => match r with | .ok evs => evs | .error _ => []),
   cands.map (fun c => Req.events c.id))

/-- The `FixtureSignature` (part_000:316-320, server.js:132-136): the
lexicographically ordered pair of normalized home/away names.  JS `<` on
strings (UTF-16 code-unit order) is modelled by Lean's code-point order;
both are strict total orders, which is all the signature relies on. -/
def sig (ev : FixtureEvent) : String :=
  let h := normalizePlain ev.homeName
  let a := normalizePlain ev.awayName
  if h < a then h ++ " vs " ++ a else a ++ " vs " ++ h

/-- The `new Map(entries)`: a duplicated key keeps the last value. -/
def upsertSig (l : List (String × FixtureEvent)) (p : String × FixtureEvent) :
    List (String × FixtureEvent) :=
  match l with
  | [] => [p]
  | q :: qs => if q.1 = p.1 then p :: qs else q :: upsertSig qs p

/-- The `rightIndex = new Map(rightEvents.map(ev => [sig(ev), ev]))`. -/
def buildIndex (evs : List FixtureEvent) : List (String × FixtureEvent) :=
  (evs.map (fun ev => (sig ev, ev))).foldl upsertSig []

/-- The intersection loop: first left event whose signature appears in
the right index, paired with its twin. -/
def findTwin (idx : List (String × FixtureEvent)) :
    List FixtureEvent → Option (FixtureEvent × FixtureEvent)
  | [] => none
  | ev :: rest =>
    match idx.lookup (sig ev) with
    | some twin => some (ev, twin)
    | none => findTwin idx rest

/-- The result built from a Strategy-B signature collision
(part_000:327-331). -/
def resultOfEventB (ev twin : FixtureEvent) : ResolutionResult :=
  let startUnix :=
    if ev.startTimestamp = 0 then twin.startTimestamp else ev.startTimestamp
  { tournament :=
      jsOrS ev.tournamentName
        (jsOrS twin.tournamentName (jsOrS ev.seasonName twin.seasonName)),
    startIso := if startUnix = 0 then none else some (toIso (startUnix * 1000)) }

/-- The `/enrich-online` web fallback (part_000:337-353): only a truthy
`found.tournament` yields a result; `startIso` passes through with falsy
mapped to null. -/
def webFallbackResult : Option WebFound → Option ResolutionResult
  | none => none
  | some f =>
    if f.tournament = "" then none
    else some { tournament := f.tournament,
                startIso := if f.startIso = "" then none else some f.startIso }

/-! ## The resolution orchestrator (`enrichGenericSelection`,
part_000:167-357) -/

/-- The `enrichGenericSelection`, as a pure function of the upstream oracle:
returns the resolution result together with the list of upstream calls
issued, in order.  The source function can only throw for programming
errors — every fetch failure is caught inside a strategy — which the
model reflects by being total. -/
def enrichGenericSelection (O : Oracle) (partido : String) :
    Option ResolutionResult × List Req :=
  if partido = "" then (none, [])
  else
    match splitSides partido with
    | s0 :: s1 :: _ =>
      let lv := (expandNameP s0).flatMap addDiacriticAlternatives
      let rv := (expandNameP s1).flatMap addDiacriticAlternatives
      let queries := (lv.flatMap (fun a => rv.map (fun b => a ++ " " ++ b))).take 6
      match strategyA O lv rv queries with
      | (some r, reqs) => (some r, reqs)
      | (none, reqsA) =>
        let (lcOpt, reqsL) := firstCandidatesOrNull O lv
        let (rcOpt, reqsR) := firstCandidatesOrNull O rv
        match lcOpt, rcOpt with
        | some lc, some rc =>
          let (lEvs, lreqs) := settleEvents O lc
          let (rEvs, rreqs) := settleEvents O rc
          match findTwin (buildIndex rEvs) lEvs with
          | some (ev, twin) =>
            (some (resultOfEventB ev twin),
             reqsA ++ reqsL ++ reqsR ++ lreqs ++ rreqs)
          | none =>
            (webFallbackResult (O.web partido),
             reqsA ++ reqsL ++ reqsR ++ lreqs ++ rreqs ++ [Req.web partido])
        | _, _ => (none, reqsA ++ reqsL ++ reqsR)
    | _ => (none, [])

/-- The process-wide `matchCache` (part_000:144, with `CACHE_MS`
= 5 · 60 · 1000 at part_000:145) modelled as explicit state.
`enrichGenericSelection` never reads or writes the map, so the state
passes through untouched and the result cannot depend on it. -/
def CacheState : Type := List (String × ResolutionResult)

/-- The `CACHE_MS = 5 * 60 * 1000` (part_000:145). -/
def CACHE_MS : Nat := 5 * 60 * 1000

/-- Resolution in the presence of the cache state: faithful to the
source, the cache is neither consulted nor updated. -/
def enrichWithCache (cache : CacheState) (O : Oracle) (partido : String) :
    (Option ResolutionResult × List Req) × CacheState :=
  (enrichGenericSelection O partido, cache)

/-! ## Regex helpers for the validators

The two tournament validators test with `/.../i` alternations, one of
them wrapped in `\b( … )\b`.  `\b` in JS regexes is defined through
`\w = [A-Za-z0-9_]`. -/

/-- A JS word character, `\w`. -/
def isWordChar (c : Char) : Bool :=
  decide (('a' ≤ c ∧ c ≤ 'z') ∨ ('A' ≤ c ∧ c ≤ 'Z') ∨ ('0' ≤ c ∧ c ≤ '9') ∨ c = '_')

/-- Case-insensitive substring test (a bare `/pat/i.test(s)` alternative,
`pat` given lower-case). -/
def containsCI (s : String) (pat : List Char) : Bool :=
  containsSub (lowerL s.data) pat

/-- Scan for an occurrence of `m` preceded and followed by a word
boundary; `prev` is the character before the current position.  Assumes
`m` starts and ends with a word character (true of every marker). -/
def containsWordAux (m : List Char) : Option Char → List Char → Bool
  | _, [] => false
  | prev, c :: cs =>
    ((match prev with | none => true | some p => !isWordChar p) &&
       m.isPrefixOf (c :: cs) &&
       (match (c :: cs).drop m.length with
        | [] => true
        | d :: _ => !isWordChar d)) ||
    containsWordAux m (some c) cs

/-- Case-insensitive `\b m \b` containment test. -/
def containsWordCI (s : String) (m : String) : Bool :=
  containsWordAux (lowerL m.data) none (lowerL s.data)

/-! ## The tournament validators -/

/-- The generic-competition alternation of `looksGeneric`
(server.js:438): `/atp tour|wta tour|league|liga|tournament/i`. -/
def genericPats : List (List Char) :=
  ["atp tour".data, "wta tour".data, "league".data, "liga".data,
   "tournament".data]

/-- The specific-competition markers of `looksGeneric` (server.js:439):
`\b(ATP|WTA|ITF|Challenger|Grand Slam|Masters|1000|500|250|Copa|Serie A|LaLiga|Premier|Champions|Europa League|Basel|Madrid|Roma|Paris|Miami|Shanghai)\b`. -/
def markerList : List String :=
  ["ATP", "WTA", "ITF", "Challenger", "Grand Slam", "Masters", "1000",
   "500", "250", "Copa", "Serie A", "LaLiga", "Premier", "Champions",
   "Europa League", "Basel", "Madrid", "Roma", "Paris", "Miami",
   "Shanghai"]

/-- The `looksGeneric` (server.js:437-439): truthy name matching the generic
alternation while containing none of the markers. -/
def looksGeneric (name : String) : Bool :=
  !(name = "") && (genericPats.any (containsCI name)) &&
    !(markerList.any (containsWordCI name))

/-- The marker list of `invalidGenericTournament` (part_000:848-849),
which adds `Swiss Indoors`, `Acapulco`, `Doha`, `Dubai`, `Barcelona`,
`Monte-Carlo` and `Euroleague` and drops `Serie A`. -/
def markerListP : List String :=
  ["ATP", "WTA", "ITF", "Challenger", "Grand Slam", "Masters", "1000",
   "500", "250", "Copa", "Swiss Indoors", "Basel", "Madrid", "Roma",
   "Paris", "Acapulco", "Miami", "Shanghai", "Doha", "Dubai",
   "Barcelona", "Monte-Carlo", "Euroleague", "LaLiga", "Premier",
   "Champions", "Europa League"]

/-- The `invalidGenericTournament` (part_000:847-849); its generic
alternation is `/atp tour|wta tour|tournament|league|liga/i`, the same
set of patterns. -/
def invalidGenericTournament (name : String) : Bool :=
  !(name = "") && (genericPats.any (containsCI name)) &&
    !(markerListP.any (containsWordCI name))

/-! ## The temporal validator (server.js:441-444, part_000:851-858)

```js
const now = Date.now();
const max = now + 3 * 24 * 60 * 60 * 1000;
if (data?.startIso) {
  const t = Date.parse(data.startIso);
  if (isNaN(t) || t < now - 10 * 60 * 1000 || t > max) data.startIso = null;
}
```

`Date.parse` is a `String → Option Int` parameter, `none` for `NaN`;
times are epoch milliseconds; `startIso` is a `String` with `""` for
null/absent (it is only ever used through JS truthiness). -/

/-- Null out `startIso` when it parses to `NaN`, lies before
`now - 10 min` or after `now + 3 days`; an empty (falsy) `startIso` is
left untouched. -/
def fixStartIso (now : Int) (parse : String → Option Int) (s : String) : String :=
  if s = "" then s
  else
    match parse s with
    | none => ""
    | some t =>
      if t < now - 10 * 60 * 1000 ∨ t > now + 3 * 24 * 60 * 60 * 1000 then ""
      else s

/-! ## The verified-fallback validation (`enrichViaWeb`, server.js:366-448)

After parsing the browsing model's JSON, the server-side validation
applies exactly the temporal check and the generic-tournament check.
The `sources` array of the response is carried along untouched — no code
path of `enrichViaWeb` inspects it. -/

/-- The JSON object produced by the verified-fallback call (the fields
the validation can touch, plus the source URL list). -/
structure WebData where
  tournament : String
  startIso : String
  sources : List String
deriving Repr, DecidableEq

/-- The server-side validation tail of `enrichViaWeb`
(server.js:434-447). -/
def enrichViaWebValidate (now : Int) (parse : String → Option Int)
    (d : WebData) : WebData :=
  let d1 := { d with startIso := fixStartIso now parse d.startIso }
  { d1 with
    tournament :=
      if d1.tournament = "" ∨ looksGeneric d1.tournament then ""
      else d1.tournament }

/-! ## The per-sport allow-list and the `check-result` source filter
(server.js:886-891 and 1010-1016) -/

/-- The `pickDomains(sport)`: trusted domains per sport. -/
def pickDomains (sport : String) : List String :=
  if sport = "" then
    ["sofascore.com", "flashscore.com", "espn.com", "as.com", "marca.com"]
  else if containsSub (lowerL sport.data) "tennis".data then
    ["sofascore.com", "flashscore.com", "atptour.com", "wtatennis.com",
     "tennis.com"]
  else
    ["sofascore.com", "flashscore.com", "espn.com", "livescore.com",
     "laliga.com", "legaseriea.it"]

/-- One entry of the fallback response's `sources` array in
`check-result`. -/
structure SrcEntry where
  url : String
  score : String
deriving Repr, DecidableEq

/-- The `new URL(u).hostname`, modelled for http/https URLs: the authority
component up to the first `/`, `:` or `?`.  Anything without an
http(s) scheme makes the `URL` constructor throw, which the filter turns
into exclusion (`catch { return false }`). -/
def hostOf (url : String) : Option String :=
  let l := url.data
  let rest :=
    if "https://".data.isPrefixOf l then some (l.drop 8)
    else if "http://".data.isPrefixOf l then some (l.drop 7)
    else none
  rest.map (fun r => ⟨r.takeWhile (fun c => !(c = '/' ∨ c = ':' ∨ c = '?'))⟩)

/-- The `host.endsWith(d)`. -/
def endsWithStr (host d : String) : Bool := d.data.isSuffixOf host.data

/-- The `okSources` filter of `check-result` (server.js:1011-1016):
keep sources whose URL host ends with an allow-listed domain, cap at 3. -/
def okSources (domains : List String) (sources : List SrcEntry) : List SrcEntry :=
  (sources.filter (fun s =>
    match hostOf s.url with
    | some host => domains.any (fun d => endsWithStr host d)
    | none => false)).take 3

/-! ## Concrete scenarios used to settle the claims -/

/-- An oracle on which every upstream call fails. -/
def nullOracle : Oracle :=
  { search := fun _ => .error (),
    events := fun _ => .error (),
    web := fun _ => none }

/-- The Sinner–Cerúndolo fixture of the spec's concrete scenario. -/
def cerundoloEvent : FixtureEvent :=
  { homeName := "Jannik Sinner", awayName := "Francisco Cerundolo",
    tournamentName := "Paris Masters", seasonName := "",
    startTimestamp := 1700000000 }

/-- An upstream world in which the combined query
`"sinner cerundolo"` finds tennis player 1, whose next events contain
the Sinner–Cerúndolo fixture. -/
def sinnerOracle : Oracle :=
  { search := fun q =>
      if q = "sinner cerundolo" then
        .ok [("tennis", { players := [{ id := 1, name := "Jannik Sinner" }],
                          teams := [] })]
      else .error (),
    events := fun i => if i = 1 then .ok [cerundoloEvent] else .error (),
    web := fun _ => none }

/-- A fixture whose away side matches no variant of either input side. -/
def zandschulpEvent : FixtureEvent :=
  { homeName := "Jannik Sinner", awayName := "Botic van de Zandschulp",
    tournamentName := "Erste Bank Open", seasonName := "",
    startTimestamp := 1730000000 }

/-- An upstream world for the degenerate input
`"A. Sinner vs B. Sinner"` (both sides expand to the single shared
variant `"sinner"`): the combined query finds player 7 whose next event
is Sinner–van de Zandschulp. -/
def sinnerSinnerOracle : Oracle :=
  { search := fun q =>
      if q = "sinner sinner" then
        .ok [("tennis", { players := [{ id := 7, name := "Jannik Sinner" }],
                          teams := [] })]
      else .error (),
    events := fun i => if i = 7 then .ok [zandschulpEvent] else .error (),
    web := fun _ => none }

/-- Two consecutive resolutions of the same match text, the second one
starting from the cache state the first one left behind; returns both
(result, upstream-call list) pairs. -/
def resolveTwice (O : Oracle) (p : String) :
    (Option ResolutionResult × List Req) × (Option ResolutionResult × List Req) :=
  let first := enrichWithCache [] O p
  let second := enrichWithCache first.2 O p
  (first.1, second.1)

/-- The spec's both-sides requirement, stated from the spec's words (for
comparison with the code's `bothSidesTest`): the fixture's home and away
fields each contain a variant of a *different* original participant
side. -/
def specDistinctSidesMatch (lv rv : List String) (ev : FixtureEvent) : Bool :=
  let home := normalizePlain ev.homeName
  let away := normalizePlain ev.awayName
  (lv.any (fun v => containsSub home.data (normalizePlain v).data) &&
     rv.any (fun v => containsSub away.data (normalizePlain v).data)) ||
  (rv.any (fun v => containsSub home.data (normalizePlain v).data) &&
     lv.any (fun v => containsSub away.data (normalizePlain v).data))

/-- A verified-fallback response whose only source is an untrusted blog,
with a well-formed in-window kickoff and a specific tournament. -/
def blogData : WebData :=
  { tournament := "Swiss Indoors Basel (ATP 500)",
    startIso := "2025-10-30T17:30:00Z",
    sources := ["https://some-random-blog.com/post"] }

/-- Candidates and a branch-failure pattern for the settle-all witness:
branch 2 of 3 rejects. -/
def settleOracle : Oracle :=
  { search := fun _ => .error (),
    events := fun i =>
      if i = 1 then .ok [cerundoloEvent]
      else if i = 3 then .ok [zandschulpEvent]
      else .error (),
    web := fun _ => none }

/-! ## Idempotence infrastructure for `normalizePlain`

A character is *settled* when every stage of the pipeline leaves it
alone; the output of `normalizePlain` consists of settled characters and
is free of double whitespace and of leading/trailing whitespace, which
makes a second pass the identity. -/

/-- The character has no NFD decomposition. -/
def noDecomp (c : Char) : Bool := (nfdTable.find? (fun p => p.1 = c)).isNone

/-- A settled character: no decomposition, not a combining mark, its own
lower case, not a period. -/
def goodChar (c : Char) : Bool :=
  noDecomp c && !isMark c && decide (lowerChar c = c) && !(c = '.')

/-- No two consecutive whitespace characters. -/
def noDouble : List Char → Bool
  | [] => true
  | a :: l =>
    (match l.head? with
     | some b => !(isWs a && isWs b)
     | none => true) && noDouble l

theorem collapseF_irrel :
    ∀ (f1 : Nat) (l : List Char), l.length ≤ f1 →
      ∀ f2, l.length ≤ f2 → collapseF f1 l = collapseF f2 l := by
  intro f1
  induction f1 with
  | zero =>
    intro l hl f2 _
    have : l = [] := List.length_eq_zero.mp (Nat.le_zero.mp hl)
    subst this
    simp [collapseF]
  | succ n ih =>
    intro l hl f2 h2
    rcases l with _ | ⟨c1, _ | ⟨c2, rest⟩⟩
    · simp [collapseF]
    · simp [collapseF]
    · rcases f2 with _ | f2'
      · simp at h2
      · simp only [List.length_cons] at hl h2
        have hdw := (List.dropWhile_sublist (p := isWs) (l := rest)).length_le
        simp only [collapseF]
        by_cases hw1 : isWs c1
        · by_cases hw2 : isWs c2
          · simp only [hw1, hw2, if_true]
            rw [ih _ (by omega) f2' (by omega)]
          · simp only [hw1, hw2, if_true, Bool.false_eq_true, if_false]
            rw [ih _ (by simp; omega) f2' (by simp; omega)]
        · simp only [hw1, Bool.false_eq_true, if_false]
          rw [ih _ (by simp; omega) f2' (by simp; omega)]

theorem collapseWs_nil : collapseWs [] = [] := rfl

theorem collapseWs_singleton (c : Char) : collapseWs [c] = [c] := rfl

theorem collapseWs_cons_eq (c1 c2 : Char) (rest : List Char) :
    collapseWs (c1 :: c2 :: rest) =
      if isWs c1 then
        if isWs c2 then ' ' :: collapseWs (rest.dropWhile isWs)
        else c1 :: collapseWs (c2 :: rest)
      else c1 :: collapseWs (c2 :: rest) := by
  show collapseF (rest.length + 1 + 1) (c1 :: c2 :: rest) = _
  simp only [collapseF]
  have hdw := (List.dropWhile_sublist (p := isWs) (l := rest)).length_le
  rw [collapseF_irrel (rest.length + 1) (rest.dropWhile isWs) (by omega)
    (rest.dropWhile isWs).length (Nat.le_refl _)]
  rfl

theorem collapseWs_ind (motive : List Char → Prop)
    (h1 : motive [])
    (h2 : ∀ c, motive [c])
    (h3 : ∀ c1 c2 rest, isWs c1 = true → isWs c2 = true →
      motive (rest.dropWhile isWs) → motive (c1 :: c2 :: rest))
    (h4 : ∀ c1 c2 rest, isWs c1 = true → isWs c2 = false →
      motive (c2 :: rest) → motive (c1 :: c2 :: rest))
    (h5 : ∀ c1 c2 rest, isWs c1 = false → motive (c2 :: rest) →
      motive (c1 :: c2 :: rest)) :
    ∀ l, motive l := by
  have key : ∀ (n : Nat) (l : List Char), l.length ≤ n → motive l := by
    intro n
    induction n with
    | zero =>
      intro l hl
      have : l = [] := List.length_eq_zero.mp (Nat.le_zero.mp hl)
      subst this
      exact h1
    | succ n ih =>
      intro l hl
      rcases l with _ | ⟨c1, _ | ⟨c2, rest⟩⟩
      · exact h1
      · exact h2 c1
      · simp only [List.length_cons] at hl
        have hdw := (List.dropWhile_sublist (p := isWs) (l := rest)).length_le
        by_cases hw1 : isWs c1
        · by_cases hw2 : isWs c2
          · exact h3 c1 c2 rest hw1 hw2 (ih _ (by omega))
          · exact h4 c1 c2 rest hw1 (Bool.not_eq_true _ ▸ hw2)
              (ih _ (by simp; omega))
        · exact h5 c1 c2 rest (Bool.not_eq_true _ ▸ hw1) (ih _ (by simp; omega))
  intro l
  exact key l.length l (Nat.le_refl _)

theorem splitF_irrel :
    ∀ (f1 : Nat) (l : List Char), l.length ≤ f1 →
      ∀ f2, l.length ≤ f2 → splitF f1 l = splitF f2 l := by
  intro f1
  induction f1 with
  | zero =>
    intro l hl f2 _
    have : l = [] := List.length_eq_zero.mp (Nat.le_zero.mp hl)
    subst this
    simp [splitF]
  | succ n ih =>
    intro l hl f2 h2
    rcases l with _ | ⟨c, cs⟩
    · simp [splitF]
    · rcases f2 with _ | f2'
      · simp at h2
      · simp only [List.length_cons] at hl h2
        simp only [splitF]
        by_cases hw : isWs c
        · simp only [hw, if_true]
          exact ih cs (by omega) f2' (by omega)
        · simp only [hw, Bool.false_eq_true, if_false]
          have hdw : ((c :: cs).dropWhile (fun d => !isWs d)).length ≤ cs.length := by
            rw [List.dropWhile_cons]
            simp only [hw, Bool.not_false, if_true]
            exact (List.dropWhile_sublist (p := fun d => !isWs d) (l := cs)).length_le
          rw [ih _ (by omega) f2' (by omega)]

theorem splitWs_nil : splitWs [] = [] := rfl

theorem splitWs_cons_eq (c : Char) (cs : List Char) :
    splitWs (c :: cs) =
      if isWs c then splitWs cs
      else (c :: cs).takeWhile (fun d => !isWs d) ::
        splitWs ((c :: cs).dropWhile (fun d => !isWs d)) := by
  show splitF (cs.length + 1) (c :: cs) = _
  simp only [splitF]
  by_cases hw : isWs c
  · simp [hw, splitWs]
  · simp only [hw, Bool.false_eq_true, if_false]
    have hdw : ((c :: cs).dropWhile (fun d => !isWs d)).length ≤ cs.length := by
      rw [List.dropWhile_cons]
      simp only [hw, Bool.not_false, if_true]
      exact (List.dropWhile_sublist (p := fun d => !isWs d) (l := cs)).length_le
    rw [splitF_irrel cs.length _ hdw _ (Nat.le_refl _)]
    rfl

theorem splitWs_ind (motive : List Char → Prop)
    (h1 : motive [])
    (h2 : ∀ c cs, isWs c = true → motive cs → motive (c :: cs))
    (h3 : ∀ c cs, isWs c = false →
      motive ((c :: cs).dropWhile (fun d => !isWs d)) → motive (c :: cs)) :
    ∀ l, motive l := by
  have key : ∀ (n : Nat) (l : List Char), l.length ≤ n → motive l := by
    intro n
    induction n with
    | zero =>
      intro l hl
      have : l = [] := List.length_eq_zero.mp (Nat.le_zero.mp hl)
      subst this
      exact h1
    | succ n ih =>
      intro l hl
      rcases l with _ | ⟨c, cs⟩
      · exact h1
      · simp only [List.length_cons] at hl
        by_cases hw : isWs c
        · exact h2 c cs hw (ih cs (by omega))
        · have hdw : ((c :: cs).dropWhile (fun d => !isWs d)).length ≤ cs.length := by
            rw [List.dropWhile_cons]
            simp only [hw, Bool.not_false, if_true]
            exact (List.dropWhile_sublist (p := fun d => !isWs d) (l := cs)).length_le
          exact h3 c cs (Bool.not_eq_true _ ▸ hw) (ih _ (by omega))
  intro l
  exact key l.length l (Nat.le_refl _)

theorem decomp_eq_single {c : Char} (h : noDecomp c = true) : decomp c = [c] := by
  unfold decomp
  unfold noDecomp at h
  rw [Option.isNone_iff_eq_none] at h
  rw [h]
  rfl

theorem lowerChar_idem (c : Char) : lowerChar (lowerChar c) = lowerChar c := by
  rcases h : asciiLower.find? (fun p => p.1 = c) with _ | p
  · have hc : lowerChar c = c := by unfold lowerChar; rw [h]; rfl
    rw [hc]
    exact hc
  · have hm : p ∈ asciiLower := List.mem_of_find?_eq_some h
    have hc : lowerChar c = p.2 := by unfold lowerChar; rw [h]; rfl
    have hall : asciiLower.all (fun p => decide (lowerChar p.2 = p.2)) = true := by decide
    rw [List.all_eq_true] at hall
    have := hall p hm
    simp only [decide_eq_true_eq] at this
    rw [hc, this]

theorem decomp_base_good {e d : Char} (hd : d ∈ decomp e) (hm : isMark d = false) :
    noDecomp (lowerChar d) = true ∧ isMark (lowerChar d) = false := by
  rcases h : nfdTable.find? (fun p => p.1 = e) with _ | pr
  · have he : decomp e = [e] := by unfold decomp; rw [h]; rfl
    rw [he, List.mem_singleton] at hd
    subst hd
    have hnd : noDecomp d = true := by unfold noDecomp; rw [h]; rfl
    rcases hl : asciiLower.find? (fun p => p.1 = d) with _ | p
    · have : lowerChar d = d := by unfold lowerChar; rw [hl]; rfl
      rw [this]
      exact ⟨hnd, hm⟩
    · have hmem : p ∈ asciiLower := List.mem_of_find?_eq_some hl
      have : lowerChar d = p.2 := by unfold lowerChar; rw [hl]; rfl
      rw [this]
      have hall : asciiLower.all (fun p => noDecomp p.2 && !isMark p.2) = true := by decide
      rw [List.all_eq_true] at hall
      have := hall p hmem
      simp only [Bool.and_eq_true, Bool.not_eq_true'] at this
      exact this
  · have hmem : pr ∈ nfdTable := List.mem_of_find?_eq_some h
    have he : decomp e = pr.2 := by unfold decomp; rw [h]; rfl
    rw [he] at hd
    have hall : nfdTable.all (fun pr => pr.2.all
        (fun d => isMark d || (noDecomp (lowerChar d) && !isMark (lowerChar d)))) = true := by
      decide
    rw [List.all_eq_true] at hall
    have h2 := hall pr hmem
    rw [List.all_eq_true] at h2
    have h3 := h2 d hd
    rw [hm] at h3
    simp only [Bool.false_or, Bool.and_eq_true, Bool.not_eq_true'] at h3
    exact h3

/-- Every character surviving the dot-stripping stage is settled. -/
theorem stage_chars_good {l : List Char} {c : Char}
    (hc : c ∈ stripDots (lowerL (stripMarks (nfd l)))) : goodChar c = true := by
  unfold stripDots at hc
  rw [List.mem_filter] at hc
  obtain ⟨hc, hdot⟩ := hc
  unfold lowerL at hc
  rw [List.mem_map] at hc
  obtain ⟨d, hd, hlow⟩ := hc
  unfold stripMarks at hd
  rw [List.mem_filter] at hd
  obtain ⟨hd, hmark⟩ := hd
  unfold nfd at hd
  rw [List.mem_flatMap] at hd
  obtain ⟨e, _, hde⟩ := hd
  simp only [Bool.not_eq_true'] at hmark
  obtain ⟨hnd, hnm⟩ := decomp_base_good hde hmark
  subst hlow
  unfold goodChar
  rw [hnd, hnm, lowerChar_idem]
  simp only [Bool.not_eq_true'] at hdot
  simp [hdot]

/-- Stage identities on lists of settled characters. -/
theorem nfd_eq_self {l : List Char} (h : ∀ c ∈ l, noDecomp c = true) :
    nfd l = l := by
  induction l with
  | nil => rfl
  | cons c cs ih =>
    unfold nfd
    rw [List.flatMap_cons]
    rw [decomp_eq_single (h c (List.mem_cons_self c cs))]
    have := ih (fun d hd => h d (List.mem_cons_of_mem c hd))
    unfold nfd at this
    rw [this]
    rfl

theorem stripMarks_eq_self {l : List Char} (h : ∀ c ∈ l, isMark c = false) :
    stripMarks l = l := by
  unfold stripMarks
  apply List.filter_eq_self.mpr
  intro c hc
  rw [h c hc]
  rfl

theorem lowerL_eq_self {l : List Char} (h : ∀ c ∈ l, lowerChar c = c) :
    lowerL l = l := by
  unfold lowerL
  induction l with
  | nil => rfl
  | cons c cs ih =>
    rw [List.map_cons, h c (List.mem_cons_self c cs),
      ih (fun d hd => h d (List.mem_cons_of_mem c hd))]

theorem stripDots_eq_self {l : List Char} (h : ∀ c ∈ l, (c = '.') = False) :
    stripDots l = l := by
  unfold stripDots
  apply List.filter_eq_self.mpr
  intro c hc
  simp [h c hc]

theorem noDouble_tail {a : Char} {l : List Char} (h : noDouble (a :: l) = true) :
    noDouble l = true := by
  unfold noDouble at h
  exact (Bool.and_eq_true _ _).mp h |>.2

theorem noDouble_cons_of_head {a : Char} {l : List Char}
    (h1 : ∀ b, l.head? = some b → (isWs a && isWs b) = false)
    (h2 : noDouble l = true) : noDouble (a :: l) = true := by
  unfold noDouble
  rcases hh : l.head? with _ | b
  · simpa [hh] using h2
  · simp only [hh, h1 b hh, h2]
    rfl

theorem dropWhile_head_not {p : Char → Bool} :
    ∀ {l : List Char} {h : Char}, (l.dropWhile p).head? = some h → p h = false := by
  intro l
  induction l with
  | nil => intro h hh; simp [List.dropWhile] at hh
  | cons c cs ih =>
    intro h hh
    by_cases hp : p c
    · rw [List.dropWhile_cons_of_pos hp] at hh
      exact ih hh
    · rw [List.dropWhile_cons_of_neg hp] at hh
      simp only [List.head?_cons, Option.some.injEq] at hh
      subst hh
      exact Bool.eq_false_iff.mpr hp

theorem noDouble_dropWhile {p : Char → Bool} :
    ∀ {l : List Char}, noDouble l = true → noDouble (l.dropWhile p) = true := by
  intro l
  induction l with
  | nil => intro h; exact h
  | cons c cs ih =>
    intro h
    by_cases hp : p c
    · rw [List.dropWhile_cons_of_pos hp]
      exact ih (noDouble_tail h)
    · rw [List.dropWhile_cons_of_neg hp]
      exact h

theorem collapseWs_head?_not_ws {c : Char} (cs : List Char)
    (h : isWs c = false) : (collapseWs (c :: cs)).head? = some c := by
  cases cs with
  | nil => rw [collapseWs_singleton]; rfl
  | cons d ds =>
    rw [collapseWs_cons_eq]
    simp [h]

theorem noDouble_collapseWs : ∀ l : List Char, noDouble (collapseWs l) = true := by
  intro l
  induction l using collapseWs_ind with
  | h1 => rw [collapseWs_nil]; rfl
  | h2 c => rw [collapseWs_singleton]; rfl
  | h3 c1 c2 rest hw1 hw2 ih =>
    rw [collapseWs_cons_eq]
    simp only [hw1, hw2, if_true]
    apply noDouble_cons_of_head _ ih
    intro b hb
    have : isWs b = false := by
      rcases hd : (rest.dropWhile isWs).head? with _ | e
      · exfalso
        cases hrest : rest.dropWhile isWs with
        | nil => rw [hrest] at hb; rw [collapseWs_nil] at hb; simp at hb
        | cons e es =>
          rw [hrest] at hd
          simp at hd
      · have hws : isWs e = false := dropWhile_head_not hd
        cases hrest : rest.dropWhile isWs with
        | nil => rw [hrest] at hd; simp at hd
        | cons f fs =>
          rw [hrest] at hd hb
          simp only [List.head?_cons, Option.some.injEq] at hd
          subst hd
          rw [collapseWs_head?_not_ws fs hws] at hb
          simp only [Option.some.injEq] at hb
          subst hb
          exact hws
    rw [this]
    simp
  | h4 c1 c2 rest hw1 hw2 ih =>
    rw [collapseWs_cons_eq]
    simp only [hw1, hw2, if_true, Bool.false_eq_true, if_false]
    apply noDouble_cons_of_head _ ih
    intro b hb
    rw [collapseWs_head?_not_ws rest hw2] at hb
    simp only [Option.some.injEq] at hb
    subst hb
    simp [hw2]
  | h5 c1 c2 rest hw1 ih =>
    rw [collapseWs_cons_eq]
    simp only [hw1, Bool.false_eq_true, if_false]
    apply noDouble_cons_of_head _ ih
    intro b _
    simp [hw1]

theorem collapseWs_of_noDouble : ∀ l : List Char, noDouble l = true → collapseWs l = l := by
  intro l
  induction l using collapseWs_ind with
  | h1 => intro _; exact collapseWs_nil
  | h2 c => intro _; exact collapseWs_singleton c
  | h3 c1 c2 rest hw1 hw2 ih =>
    intro h
    exfalso
    unfold noDouble at h
    simp [hw1, hw2] at h
  | h4 c1 c2 rest hw1 hw2 ih =>
    intro h
    rw [collapseWs_cons_eq]
    simp only [hw1, hw2, if_true, Bool.false_eq_true, if_false]
    rw [ih (noDouble_tail h)]
  | h5 c1 c2 rest hw1 ih =>
    intro h
    rw [collapseWs_cons_eq]
    simp only [hw1, Bool.false_eq_true, if_false]
    rw [ih (noDouble_tail h)]

theorem mem_collapseWs {c : Char} :
    ∀ {l : List Char}, c ∈ collapseWs l → c ∈ l ∨ c = ' ' := by
  intro l
  induction l using collapseWs_ind with
  | h1 => intro h; rw [collapseWs_nil] at h; exact Or.inl h
  | h2 d => intro h; rw [collapseWs_singleton] at h; exact Or.inl h
  | h3 c1 c2 rest hw1 hw2 ih =>
    intro h
    rw [collapseWs_cons_eq] at h
    simp only [hw1, hw2, if_true] at h
    rcases List.mem_cons.mp h with h | h
    · exact Or.inr h
    · rcases ih h with h | h
      · exact Or.inl (by
          have := List.dropWhile_sublist (p := isWs) (l := rest)
          have hc : c ∈ rest := this.mem h
          simp [hc])
      · exact Or.inr h
  | h4 c1 c2 rest hw1 hw2 ih =>
    intro h
    rw [collapseWs_cons_eq] at h
    simp only [hw1, hw2, if_true, Bool.false_eq_true, if_false] at h
    rcases List.mem_cons.mp h with h | h
    · exact Or.inl (by simp [h])
    · rcases ih h with h | h
      · exact Or.inl (List.mem_cons_of_mem c1 h)
      · exact Or.inr h
  | h5 c1 c2 rest hw1 ih =>
    intro h
    rw [collapseWs_cons_eq] at h
    simp only [hw1, Bool.false_eq_true, if_false] at h
    rcases List.mem_cons.mp h with h | h
    · exact Or.inl (by simp [h])
    · rcases ih h with h | h
      · exact Or.inl (List.mem_cons_of_mem c1 h)
      · exact Or.inr h

theorem mem_trimR {c : Char} : ∀ {l : List Char}, c ∈ trimR l → c ∈ l := by
  intro l
  induction l with
  | nil => intro h; exact h
  | cons d ds ih =>
    intro h
    rw [trimR] at h
    rcases htr : trimR ds with _ | ⟨e, es⟩
    · rw [htr] at h
      by_cases hw : isWs d
      · simp [hw] at h
      · simp only [hw, if_neg, Bool.false_eq_true, if_false] at h
        rw [List.mem_singleton] at h
        simp [h]
    · rw [htr] at h
      rcases List.mem_cons.mp h with h | h
      · simp [h]
      · exact List.mem_cons_of_mem d (ih (htr ▸ h))

theorem mem_trimL {c : Char} {l : List Char} (h : c ∈ trimL l) : c ∈ l :=
  (List.dropWhile_sublist (p := isWs) (l := l)).mem h

theorem trimR_head? {l : List Char} (h : trimR l ≠ []) :
    (trimR l).head? = l.head? := by
  cases l with
  | nil => rfl
  | cons d ds =>
    rcases htr : trimR ds with _ | ⟨e, es⟩
    · rw [trimR, htr] at h ⊢
      by_cases hw : isWs d
      · simp [hw] at h
      · simp [hw]
    · rw [trimR, htr]
      rfl

theorem noDouble_trimR : ∀ {l : List Char}, noDouble l = true → noDouble (trimR l) = true := by
  intro l
  induction l with
  | nil => intro h; exact h
  | cons d ds ih =>
    intro h
    rw [trimR]
    rcases htr : trimR ds with _ | ⟨e, es⟩
    · by_cases hw : isWs d
      · simp only [hw, if_true]
        rfl
      · simp only [hw, Bool.false_eq_true, if_false]
        rfl
    · show noDouble (d :: e :: es) = true
      have hhead : ds.head? = some e := by
        have := trimR_head? (l := ds) (by rw [htr]; simp)
        rw [htr] at this
        exact this.symm
      apply noDouble_cons_of_head
      · intro b hb
        simp only [List.head?_cons, Option.some.injEq] at hb
        subst hb
        unfold noDouble at h
        rw [hhead] at h
        have h1 := (Bool.and_eq_true _ _).mp h |>.1
        simp only [Bool.not_eq_true'] at h1
        exact h1
      · rw [← htr]
        exact ih (noDouble_tail h)

theorem trimR_getLast?_not_ws :
    ∀ {l : List Char} {c : Char}, (trimR l).getLast? = some c → isWs c = false := by
  intro l
  induction l with
  | nil => intro c h; simp [trimR] at h
  | cons d ds ih =>
    intro c h
    rw [trimR] at h
    rcases htr : trimR ds with _ | ⟨e, es⟩
    · rw [htr] at h
      by_cases hw : isWs d
      · simp [hw] at h
      · simp only [hw, Bool.false_eq_true, if_false, List.getLast?_singleton,
          Option.some.injEq] at h
        subst h
        exact Bool.eq_false_iff.mpr hw
    · rw [htr] at h
      rw [List.getLast?_cons_cons] at h
      exact ih (htr ▸ h)

theorem trimR_eq_self :
    ∀ {l : List Char}, (∀ c, l.getLast? = some c → isWs c = false) → trimR l = l := by
  intro l
  induction l with
  | nil => intro _; rfl
  | cons d ds ih =>
    intro h
    rw [trimR]
    rcases htr : trimR ds with _ | ⟨e, es⟩
    · cases ds with
      | nil =>
        have := h d (by simp)
        simp [this]
      | cons f fs =>
        exfalso
        have hds : trimR (f :: fs) = f :: fs := ih (by
          intro c hc
          apply h
          rw [List.getLast?_cons_cons]
          exact hc)
        rw [hds] at htr
        exact List.cons_ne_nil f fs htr
    · have hds : trimR ds = ds := ih (by
        intro c hc
        apply h
        cases ds with
        | nil => simp [trimR] at htr
        | cons f fs =>
          rw [List.getLast?_cons_cons]
          exact hc)
      rw [hds] at htr
      rw [htr]

theorem trimL_eq_self {l : List Char}
    (h : ∀ c, l.head? = some c → isWs c = false) : trimL l = l := by
  unfold trimL
  cases l with
  | nil => rfl
  | cons d ds =>
    rw [List.dropWhile_cons_of_neg]
    rw [h d rfl]
    simp

/-- The output of `normalizePlain` consists of settled characters. -/
theorem normalizePlainL_chars_good {l : List Char} {c : Char}
    (hc : c ∈ normalizePlainL l) : goodChar c = true := by
  unfold normalizePlainL trimWs at hc
  have h1 : c ∈ collapseWs (stripDots (lowerL (stripMarks (nfd l)))) :=
    mem_trimL (mem_trimR hc)
  rcases mem_collapseWs h1 with h2 | h2
  · exact stage_chars_good h2
  · subst h2
    decide

/-- The output of `normalizePlain` has no double whitespace. -/
theorem normalizePlainL_noDouble (l : List Char) :
    noDouble (normalizePlainL l) = true := by
  unfold normalizePlainL trimWs
  exact noDouble_trimR (noDouble_dropWhile (noDouble_collapseWs _))

/-- The `normalizePlain` is idempotent (claim C10): re-normalizing a
normalized string changes nothing, so containment tests may re-normalize
variants freely. -/
theorem normalizePlainL_idem (l : List Char) :
    normalizePlainL (normalizePlainL l) = normalizePlainL l := by
  set y := normalizePlainL l with hy
  have hgood : ∀ c ∈ y, goodChar c = true := fun c hc => normalizePlainL_chars_good hc
  have h1 : nfd y = y := nfd_eq_self (fun c hc => by
    have := hgood c hc
    unfold goodChar at this
    simp only [Bool.and_eq_true] at this
    exact this.1.1.1)
  have h2 : stripMarks y = y := stripMarks_eq_self (fun c hc => by
    have := hgood c hc
    unfold goodChar at this
    simp only [Bool.and_eq_true, Bool.not_eq_true'] at this
    exact this.1.1.2)
  have h3 : lowerL y = y := lowerL_eq_self (fun c hc => by
    have := hgood c hc
    unfold goodChar at this
    simp only [Bool.and_eq_true, decide_eq_true_eq] at this
    exact this.1.2)
  have h4 : stripDots y = y := stripDots_eq_self (fun c hc => by
    have := hgood c hc
    unfold goodChar at this
    simp only [Bool.and_eq_true, Bool.not_eq_true', decide_eq_false_iff_not] at this
    simp [this.2])
  have h5 : collapseWs y = y := collapseWs_of_noDouble y (normalizePlainL_noDouble l)
  have h6 : trimWs y = y := by
    unfold trimWs
    rw [hy]
    unfold normalizePlainL trimWs
    set cu := collapseWs (stripDots (lowerL (stripMarks (nfd l)))) with hcu
    have hL : trimL (trimR (trimL cu)) = trimR (trimL cu) := by
      apply trimL_eq_self
      intro c hc
      by_cases hne : trimR (trimL cu) = []
      · rw [hne] at hc; simp at hc
      · rw [trimR_head? hne] at hc
        exact dropWhile_head_not hc
    rw [hL]
    apply trimR_eq_self
    intro c hc
    exact trimR_getLast?_not_ws hc
  calc normalizePlainL y
      = trimWs (collapseWs (stripDots (lowerL (stripMarks (nfd y))))) := rfl
    _ = y := by rw [h1, h2, h3, h4, h5, h6]

/-! ## Tokenization lemmas for the variant-expansion guarantee -/

theorem splitWs_nil_all_ws :
    ∀ {l : List Char}, splitWs l = [] → ∀ c ∈ l, isWs c = true := by
  intro l
  induction l using splitWs_ind with
  | h1 => intro _ c hc; simp at hc
  | h2 c cs hw ih =>
    intro h d hd
    rw [splitWs_cons_eq, if_pos hw] at h
    rcases List.mem_cons.mp hd with hd | hd
    · subst hd; exact hw
    · exact ih h d hd
  | h3 c cs hw ih =>
    intro h
    rw [splitWs_cons_eq, if_neg (by simp [hw])] at h
    simp at h

theorem splitWs_head_arm {c : Char} {cs : List Char} (hw : ¬ isWs c = true) :
    splitWs (c :: cs) =
      (c :: cs).takeWhile (fun d => !isWs d) ::
        splitWs ((c :: cs).dropWhile (fun d => !isWs d)) := by
  rw [splitWs_cons_eq, if_neg hw]

theorem splitWs_singleton {l t : List Char} (h : splitWs l = [t])
    (hhead : ∀ c, l.head? = some c → isWs c = false)
    (hlast : ∀ c, l.getLast? = some c → isWs c = false) : l = t := by
  cases l with
  | nil => rw [splitWs_nil] at h; cases h
  | cons c cs =>
    have hw : ¬ isWs c = true := by
      have := hhead c rfl
      simp [this]
    rw [splitWs_head_arm hw] at h
    have htake : (c :: cs).takeWhile (fun d => !isWs d) = t :=
      (List.cons_eq_cons.mp h).1
    have hdrop : splitWs ((c :: cs).dropWhile (fun d => !isWs d)) = [] :=
      (List.cons_eq_cons.mp h).2
    have hsplit := List.takeWhile_append_dropWhile (p := fun d => !isWs d) (l := c :: cs)
    rcases hrest : (c :: cs).dropWhile (fun d => !isWs d) with _ | ⟨r, rs⟩
    · rw [hrest, List.append_nil] at hsplit
      rw [← hsplit]
      exact htake
    · exfalso
      rw [hrest] at hdrop hsplit
      rcases hgl : (r :: rs).getLast? with _ | x
      · simp at hgl
      · have hxmem : x ∈ r :: rs := List.mem_of_getLast?_eq_some hgl
        have hxws : isWs x = true := splitWs_nil_all_ws hdrop x hxmem
        have hlast2 : (c :: cs).getLast? = some x := by
          rw [← hsplit, List.getLast?_append, hgl]
          rfl
        have := hlast x hlast2
        rw [hxws] at this
        cases this

theorem normalizePlainL_head_not_ws {l : List Char} {c : Char}
    (h : (normalizePlainL l).head? = some c) : isWs c = false := by
  unfold normalizePlainL trimWs at h
  set cu := collapseWs (stripDots (lowerL (stripMarks (nfd l)))) with hcu
  by_cases hne : trimR (trimL cu) = []
  · rw [hne] at h
    simp at h
  · rw [trimR_head? hne] at h
    exact dropWhile_head_not h

theorem normalizePlainL_getLast_not_ws {l : List Char} {c : Char}
    (h : (normalizePlainL l).getLast? = some c) : isWs c = false :=
  trimR_getLast?_not_ws h

theorem setAdd_ne_nil (l : List String) (x : String) : setAdd l x ≠ [] := by
  unfold setAdd
  by_cases h : x ∈ l
  · rw [if_pos h]
    exact List.ne_nil_of_mem h
  · rw [if_neg h]
    simp

theorem mem_setAdd_self (l : List String) (x : String) : x ∈ setAdd l x := by
  unfold setAdd
  by_cases h : x ∈ l
  · rw [if_pos h]; exact h
  · rw [if_neg h]
    simp

theorem mem_setAdd_of_mem (l : List String) (x y : String) (h : y ∈ l) :
    y ∈ setAdd l x := by
  unfold setAdd
  by_cases hx : x ∈ l
  · rw [if_pos hx]; exact h
  · rw [if_neg hx]
    exact List.mem_append_left _ h

/-! ## The claims -/

/-- C10: the name normalization function is idempotent — for every
string `s`, `normalizePlain (normalizePlain s) = normalizePlain s` — so
normalized fixture names and variants can be re-normalized during
containment tests without changing comparison results. -/
theorem c10_normalizePlain_idempotent (s : String) :
    normalizePlain (normalizePlain s) = normalizePlain s :=
  congrArg String.mk (normalizePlainL_idem s.data)

/-- C6: the fixture signature is order-independent — swapping a
fixture's home and away names yields the same `sig` — so two
independently retrieved copies of the same fixture collide regardless of
which side was listed as home. -/
theorem c6_sig_order_independent (ev : FixtureEvent) :
    sig { ev with homeName := ev.awayName, awayName := ev.homeName } = sig ev := by
  show (if normalizePlain ev.awayName < normalizePlain ev.homeName then _ else _) =
    (if normalizePlain ev.homeName < normalizePlain ev.awayName then _ else _)
  set h := normalizePlain ev.homeName
  set a := normalizePlain ev.awayName
  rcases lt_trichotomy h a with hlt | heq | hgt
  · rw [if_neg (asymm hlt), if_pos hlt]
  · rw [heq]
  · rw [if_pos hgt, if_neg (asymm hgt)]

/-- C7: when the raw match text cannot be split into at least two sides
on the `vs` separator, resolution returns `none` without issuing any
upstream call (and, the model being total, without raising an error to
the caller). -/
theorem c7_malformed_input_short_circuit (O : Oracle) (partido : String)
    (h : (splitSides partido).length < 2) :
    enrichGenericSelection O partido = (none, []) := by
  unfold enrichGenericSelection
  by_cases hp : partido = ""
  · rw [if_pos hp]
  · rw [if_neg hp]
    rcases hs : splitSides partido with _ | ⟨s0, tail⟩
    · rfl
    · rcases tail with _ | ⟨s1, rest⟩
      · rfl
      · exfalso
        rw [hs] at h
        simp only [List.length_cons] at h
        omega

/-- Witness for C7 at a concrete vs-less input. -/
theorem c7_malformed_input_short_circuit_witness :
    (splitSides "Equipo Fantasma").length < 2 ∧
      enrichGenericSelection nullOracle "Equipo Fantasma" = (none, []) :=
  ⟨by decide, c7_malformed_input_short_circuit nullOracle "Equipo Fantasma" (by decide)⟩

/-- C5: for a result carrying a (truthy) `startIso`, the temporal
validator nulls it exactly when the timestamp parses to `NaN`, lies
earlier than now − 10 minutes, or later than now + 3 days; the four
boundary probes behave as the claim states (now − 10 min passes,
now − 11 min is nulled, now + 3 days − 1 s passes, now + 3 days + 1 s is
nulled). -/
theorem c5_temporal_window (now : Int) (parse : String → Option Int)
    (s : String) (hs : s ≠ "") :
    (fixStartIso now parse s = "" ↔
      parse s = none ∨ ∃ t, parse s = some t ∧
        (t < now - 10 * 60 * 1000 ∨ t > now + 3 * 24 * 60 * 60 * 1000)) ∧
    fixStartIso now (fun _ => some (now - 10 * 60 * 1000)) s = s ∧
    fixStartIso now (fun _ => some (now - 11 * 60 * 1000)) s = "" ∧
    fixStartIso now (fun _ => some (now + 3 * 24 * 60 * 60 * 1000 - 1000)) s = s ∧
    fixStartIso now (fun _ => some (now + 3 * 24 * 60 * 60 * 1000 + 1000)) s = "" := by
  unfold fixStartIso
  simp only [if_neg hs]
  refine ⟨?_, ?_, ?_, ?_, ?_⟩
  · rcases hp : parse s with _ | t
    · simp
    · simp only [hp, Option.some.injEq, reduceCtorEq, false_or]
      by_cases hc : t < now - 10 * 60 * 1000 ∨ t > now + 3 * 24 * 60 * 60 * 1000
      · rw [if_pos hc]
        constructor
        · intro _
          exact ⟨t, rfl, hc⟩
        · intro _
          rfl
      · rw [if_neg hc]
        constructor
        · intro h
          exact absurd h hs
        · rintro ⟨t', ht', hcond⟩
          subst ht'
          exact absurd hcond hc
  · show (if now - 10 * 60 * 1000 < now - 10 * 60 * 1000 ∨
        now - 10 * 60 * 1000 > now + 3 * 24 * 60 * 60 * 1000 then "" else s) = s
    rw [if_neg (by omega)]
  · show (if now - 11 * 60 * 1000 < now - 10 * 60 * 1000 ∨
        now - 11 * 60 * 1000 > now + 3 * 24 * 60 * 60 * 1000 then "" else s) = ""
    rw [if_pos (by omega)]
  · show (if now + 3 * 24 * 60 * 60 * 1000 - 1000 < now - 10 * 60 * 1000 ∨
        now + 3 * 24 * 60 * 60 * 1000 - 1000 > now + 3 * 24 * 60 * 60 * 1000
        then "" else s) = s
    rw [if_neg (by omega)]
  · show (if now + 3 * 24 * 60 * 60 * 1000 + 1000 < now - 10 * 60 * 1000 ∨
        now + 3 * 24 * 60 * 60 * 1000 + 1000 > now + 3 * 24 * 60 * 60 * 1000
        then "" else s) = ""
    rw [if_pos (by omega)]

/-- Witness for C5 at `now = 0` with a fixed parse result. -/
theorem c5_temporal_window_witness :
    fixStartIso 0 (fun _ => some (0 - 10 * 60 * 1000)) "2025-10-30T17:30:00Z" =
      "2025-10-30T17:30:00Z" :=
  (c5_temporal_window 0 (fun _ => some 0) "2025-10-30T17:30:00Z" (by decide)).2.1

/-- C9: the variant expansion of a non-empty side always yields a
non-empty variant list; with at least two normalized tokens it contains
both the initials-stripped token join and the last token, and with
exactly one token it is exactly that token. -/
theorem c9_expandName_guarantee (side : String) (_hs : side ≠ "") :
    expandName side ≠ [] ∧
    ((splitWs (normalizePlain side).data).length ≥ 2 →
      (⟨joinSpace ((splitWs (normalizePlain side).data).filter
          (fun t => t.length > 1))⟩ : String) ∈ expandName side ∧
      (⟨(splitWs (normalizePlain side).data).getLastD []⟩ : String) ∈ expandName side) ∧
    ((splitWs (normalizePlain side).data).length = 1 →
      expandName side = [⟨(splitWs (normalizePlain side).data).getLastD []⟩]) := by
  refine ⟨?_, ?_, ?_⟩
  · unfold expandName
    by_cases h2 : (splitWs (normalizePlain side).data).length ≥ 2
    · rw [if_pos h2]
      exact setAdd_ne_nil _ _
    · rw [if_neg h2]
      exact setAdd_ne_nil _ _
  · intro h2
    unfold expandName
    rw [if_pos h2]
    constructor
    · exact mem_setAdd_of_mem _ _ _ (mem_setAdd_self _ _)
    · exact mem_setAdd_self _ _
  · intro h1
    unfold expandName
    rw [if_neg (by omega)]
    rcases htoks : splitWs (normalizePlain side).data with _ | ⟨t, ts⟩
    · rw [htoks] at h1
      simp at h1
    · rcases ts with _ | ⟨t2, ts2⟩
      · have hplain : (normalizePlain side).data = t := by
          apply splitWs_singleton htoks
          · intro c hc
            exact normalizePlainL_head_not_ws hc
          · intro c hc
            exact normalizePlainL_getLast_not_ws hc
        have hps : normalizePlain side = (⟨t⟩ : String) := by rw [← hplain]
        show setAdd [] (normalizePlain side) = _
        rw [hps]
        unfold setAdd
        rw [if_neg (by simp)]
        simp [List.getLastD]
      · rw [htoks] at h1
        simp at h1

/-- Witness for C9 at the two-token side `"J. Sinner"`. -/
theorem c9_expandName_guarantee_witness :
    expandName "J. Sinner" ≠ [] ∧
      ((splitWs (normalizePlain "J. Sinner").data).length ≥ 2 →
        (⟨joinSpace ((splitWs (normalizePlain "J. Sinner").data).filter
            (fun t => t.length > 1))⟩ : String) ∈ expandName "J. Sinner" ∧
        (⟨(splitWs (normalizePlain "J. Sinner").data).getLastD []⟩ : String)
          ∈ expandName "J. Sinner") :=
  ⟨(c9_expandName_guarantee "J. Sinner" (by decide)).1,
   (c9_expandName_guarantee "J. Sinner" (by decide)).2.1⟩

theorem settle_flatMap_eq (l : List (Except Unit (List FixtureEvent))) :
    l.flatMap (fun r => match r with | .ok evs => evs | .error _ => []) =
      (l.filterMap Except.toOption).flatten := by
  induction l with
  | nil => rfl
  | cons r rs ih =>
    cases r with
    | ok evs => simp [List.flatMap_cons, List.filterMap_cons, Except.toOption, ih]
    | error e => simp [List.flatMap_cons, List.filterMap_cons, Except.toOption, ih]

/-- C8: Strategy B's fixture fan-out has settle-all semantics — every
candidate is queried, the combined list is the concatenation of the
fulfilled branches, and a rejected branch neither discards a sibling
branch's events nor aborts the step. -/
theorem c8_settle_all_semantics :
    (∀ (O : Oracle) (cands : List Candidate),
      (settleEvents O cands).1 =
        ((cands.map (fun c => O.events c.id)).filterMap Except.toOption).flatten ∧
      (settleEvents O cands).2 = cands.map (fun c => Req.events c.id)) ∧
    (∀ (O : Oracle) (pre post : List Candidate) (cf : Candidate),
      O.events cf.id = .error () →
      (settleEvents O (pre ++ cf :: post)).1 =
        (settleEvents O pre).1 ++ (settleEvents O post).1 ∧
      (settleEvents O (pre ++ cf :: post)).2 =
        (pre ++ cf :: post).map (fun c => Req.events c.id)) := by
  constructor
  · intro O cands
    exact ⟨settle_flatMap_eq _, rfl⟩
  · intro O pre post cf hf
    constructor
    · show (((pre ++ cf :: post).map (fun c => O.events c.id)).flatMap _) = _
      rw [settle_flatMap_eq]
      show _ = ((pre.map (fun c => O.events c.id)).flatMap _) ++
        ((post.map (fun c => O.events c.id)).flatMap _)
      rw [settle_flatMap_eq, settle_flatMap_eq]
      rw [List.map_append, List.filterMap_append, List.map_cons, List.filterMap_cons]
      rw [hf]
      simp [Except.toOption]
    · rfl

/-- Witness for C8: with the middle of three branches rejecting, the
combined list is the concatenation of the two fulfilled branches. -/
theorem c8_settle_all_semantics_witness :
    (settleEvents settleOracle
        ([{ ctype := "player", id := 1, name := "A" }] ++
          { ctype := "player", id := 2, name := "B" } ::
          [{ ctype := "player", id := 3, name := "C" }])).1 =
      (settleEvents settleOracle [{ ctype := "player", id := 1, name := "A" }]).1 ++
        (settleEvents settleOracle [{ ctype := "player", id := 3, name := "C" }]).1 :=
  (c8_settle_all_semantics.2 settleOracle
    [{ ctype := "player", id := 1, name := "A" }]
    [{ ctype := "player", id := 3, name := "C" }]
    { ctype := "player", id := 2, name := "B" } rfl).1

/-- C4: the generic-tournament validator nulls a name matching the
generic alternation without a marker (e.g. `"Liga Fantasma"`), and
`"Swiss Indoors Basel (ATP 500)"` passes unchanged — but, contrary to
the claim, a tournament of exactly `"ATP Tour"` is NOT nulled: the
marker escape `\bATP\b` matches inside `"ATP Tour"`, so `looksGeneric`
(and `invalidGenericTournament` alike) returns `false` on it and the
validator keeps it. -/
theorem c4_generic_tournament_validator :
    looksGeneric "ATP Tour" = false ∧
    (enrichViaWebValidate 0 (fun _ => none)
        { tournament := "ATP Tour", startIso := "", sources := [] }).tournament =
      "ATP Tour" ∧
    invalidGenericTournament "ATP Tour" = false ∧
    looksGeneric "Swiss Indoors Basel (ATP 500)" = false ∧
    (enrichViaWebValidate 0 (fun _ => none)
        { tournament := "Swiss Indoors Basel (ATP 500)", startIso := "",
          sources := [] }).tournament = "Swiss Indoors Basel (ATP 500)" ∧
    looksGeneric "Liga Fantasma" = true ∧
    (enrichViaWebValidate 0 (fun _ => none)
        { tournament := "Liga Fantasma", startIso := "",
          sources := [] }).tournament = "" := by
  decide

/-- C3, counterexample: the verified-fallback validation keeps both the
tournament and the kickoff of a result whose only source URL lives on
`some-random-blog.com`, a host outside every per-sport allow-list — the
allow-list is not enforced on `enrichViaWeb` results. -/
theorem c3_allowlist_not_enforced_counterexample :
    enrichViaWebValidate 0 (fun _ => some 3600000) blogData = blogData ∧
    blogData.tournament ≠ "" ∧
    blogData.startIso ≠ "" ∧
    hostOf "https://some-random-blog.com/post" = some "some-random-blog.com" ∧
    ((pickDomains "tennis").any
      (fun d => endsWithStr "some-random-blog.com" d)) = false ∧
    ((pickDomains "").any
      (fun d => endsWithStr "some-random-blog.com" d)) = false ∧
    ((pickDomains "football").any
      (fun d => endsWithStr "some-random-blog.com" d)) = false := by
  decide

/-- C3, as amended: the allow-list is enforced only by the
`check-result` endpoint's source filter — every source surviving
`okSources` has a URL host ending in an allow-listed domain — while the
verified-fallback validation is independent of the `sources` field. -/
theorem c3_allowlist_only_in_check_result
    (domains : List String) (sources : List SrcEntry) (s : SrcEntry)
    (h : s ∈ okSources domains sources) :
    (∃ host, hostOf s.url = some host ∧
      ∃ d ∈ domains, endsWithStr host d = true) ∧
    (∀ (now : Int) (parse : String → Option Int) (t iso : String)
        (srcs srcs' : List String),
      (enrichViaWebValidate now parse
          { tournament := t, startIso := iso, sources := srcs }).tournament =
        (enrichViaWebValidate now parse
          { tournament := t, startIso := iso, sources := srcs' }).tournament ∧
      (enrichViaWebValidate now parse
          { tournament := t, startIso := iso, sources := srcs }).startIso =
        (enrichViaWebValidate now parse
          { tournament := t, startIso := iso, sources := srcs' }).startIso) := by
  constructor
  · unfold okSources at h
    have h2 := List.mem_of_mem_take h
    rw [List.mem_filter] at h2
    obtain ⟨_, hpred⟩ := h2
    rcases hh : hostOf s.url with _ | host
    · rw [hh] at hpred
      simp at hpred
    · rw [hh] at hpred
      refine ⟨host, rfl, ?_⟩
      simp only [List.any_eq_true] at hpred
      obtain ⟨d, hd, hend⟩ := hpred
      exact ⟨d, hd, hend⟩
  · intro now parse t iso srcs srcs'
    exact ⟨rfl, rfl⟩

/-- Witness for C3's amended theorem: an `atptour.com` source survives
the tennis allow-list filter. -/
theorem c3_allowlist_only_in_check_result_witness :
    ∃ host, hostOf "https://www.atptour.com/en" = some host ∧
      ∃ d ∈ pickDomains "tennis", endsWithStr host d = true :=
  (c3_allowlist_only_in_check_result (pickDomains "tennis")
      [{ url := "https://www.atptour.com/en", score := "2-0" }]
      { url := "https://www.atptour.com/en", score := "2-0" }
      (by decide)).1

/-- C2: the resolution cache is never consulted.  Resolving
`"J. Sinner vs F. Cerúndolo"` twice in the `sinnerOracle` world issues
the same non-empty upstream call list both times — the declared
`matchCache`/`CACHE_MS` state passes through every call untouched, so
the second call within the TTL performs the same search and
fixture-lookup calls again instead of returning the cached result. -/
theorem c2_cache_never_consulted :
    (resolveTwice sinnerOracle "J. Sinner vs F. Cerúndolo").1 =
      (some { tournament := "Paris Masters",
              startIso := some (toIso 1700000000000) },
       [Req.search "sinner cerundolo", Req.events 1]) ∧
    (resolveTwice sinnerOracle "J. Sinner vs F. Cerúndolo").2 =
      (resolveTwice sinnerOracle "J. Sinner vs F. Cerúndolo").1 ∧
    (resolveTwice sinnerOracle "J. Sinner vs F. Cerúndolo").2.2 ≠ [] ∧
    (∀ (cache : CacheState) (O : Oracle) (p : String),
      (enrichWithCache cache O p).2 = cache ∧
      (enrichWithCache cache O p).1 = enrichGenericSelection O p) := by
  refine ⟨by decide, by decide, by decide, ?_⟩
  intro cache O p
  exact ⟨rfl, rfl⟩

/-- C1, counterexample: on `"A. Sinner vs B. Sinner"` both sides expand
to the single shared variant `"sinner"`; the matcher returns the
Sinner–van de Zandschulp fixture with a non-null `startIso` although its
away name contains no variant of either side — the shared variant
matching the home name alone satisfies the both-sides test, refuting the
claim's distinct-sides requirement (`specDistinctSidesMatch`). -/
theorem c1_shared_variant_counterexample :
    (enrichGenericSelection sinnerSinnerOracle "A. Sinner vs B. Sinner").1 =
      some { tournament := "Erste Bank Open",
             startIso := some (toIso 1730000000000) } ∧
    (expandNameP "A. Sinner").flatMap addDiacriticAlternatives = ["sinner"] ∧
    (expandNameP "B. Sinner").flatMap addDiacriticAlternatives = ["sinner"] ∧
    scanEvents ["sinner"] ["sinner"] [zandschulpEvent] = some zandschulpEvent ∧
    specDistinctSidesMatch ["sinner"] ["sinner"] zandschulpEvent = false ∧
    (["sinner"].any (fun v =>
      containsSub (normalizePlain zandschulpEvent.awayName).data
        (normalizePlain v).data)) = false := by
  decide

/-- C1, as amended: when the Strategy-A scan returns a fixture, some
left variant and some right variant are each contained in the fixture's
normalized home-or-away names; the two requirements may however be
satisfied by the same field and even by one shared variant. -/
theorem c1_both_sides_containment (lv rv : List String)
    (events : List FixtureEvent) (ev : FixtureEvent)
    (h : scanEvents lv rv events = some ev) :
    varHit lv (normalizePlain ev.homeName) (normalizePlain ev.awayName) = true ∧
    varHit rv (normalizePlain ev.homeName) (normalizePlain ev.awayName) = true := by
  unfold scanEvents at h
  have h1 := List.find?_some h
  have h2 : (varHit lv (normalizePlain ev.homeName) (normalizePlain ev.awayName) &&
      varHit rv (normalizePlain ev.homeName) (normalizePlain ev.awayName)) = true := h1
  exact (Bool.and_eq_true _ _).mp h2

/-- Witness for C1's amended theorem on the Sinner–Cerúndolo fixture. -/
theorem c1_both_sides_containment_witness :
    varHit ["sinner"] (normalizePlain cerundoloEvent.homeName)
        (normalizePlain cerundoloEvent.awayName) = true ∧
    varHit ["cerundolo"] (normalizePlain cerundoloEvent.homeName)
        (normalizePlain cerundoloEvent.awayName) = true :=
  c1_both_sides_containment ["sinner"] ["cerundolo"] [cerundoloEvent]
    cerundoloEvent (by decide)

end Betslip
